import Mathlib

/-!
Shallow embedding of fsspec's directory-listing cache (`dircache.py`) and
write-transaction coordinator (`transaction.py`).

Modelling conventions:
* Python dicts become insertion-ordered association lists (`dictGet`,
  `dictSet`, `dictPop` mirror `d[k]`, `d[k] = v`, `d.pop(k, None)`).
* `time.time()` becomes an explicit rational parameter `now` passed to every
  operation that reads the clock.
* `KeyError` becomes `Except.error ()`; operations that mutate `self` return
  the new state explicitly.
* `functools.lru_cache(max_paths + 1)` applied to
  `lambda key: self._cache.pop(key, None)` is modelled by the field `q`: the
  list of memoized keys, most recent first, truncated to `max_paths + 1`.
  A hit refreshes the key; a miss runs the wrapped pop and memoizes the key,
  silently forgetting the least recently used key beyond capacity.
* A write handle (`AbstractBufferedFile`) is opaque except for whether its
  `commit()`/`discard()` call raises; finalization calls are recorded as an
  event trace.
-/

deriving instance DecidableEq for Except

/-- One record of a directory listing (`dircache.Entry`). -/
structure Entry where
  name : String
  size : Nat
  type : String
deriving DecidableEq, Repr

/-- A directory listing: ordered list of entries. -/
abbrev Listing := List Entry

/-- Python dict lookup `d.get(k)` on an insertion-ordered association list. -/
def dictGet {α : Type} : List (String × α) → String → Option α
  | [], _ => none
  | (k', v) :: d, k => if k' = k then some v else dictGet d k

/-- Python dict assignment `d[k] = v`: replaces the value in place if the key
exists (keeping its position), otherwise appends at the end. -/
def dictSet {α : Type} : List (String × α) → String → α → List (String × α)
  | [], k, v => [(k, v)]
  | (k', v') :: d, k, v =>
    if k' = k then (k, v) :: d else (k', v') :: dictSet d k v

/-- Python `d.pop(k, None)` restricted to its effect on the dict: removes the
key if present, no error otherwise. -/
def dictPop {α : Type} : List (String × α) → String → List (String × α)
  | [], _ => []
  | (k', v') :: d, k => if k' = k then dictPop d k else (k', v') :: dictPop d k

/-- State of `fsspec.dircache.DirCache`: the listing store `_cache`, the
last-write times `_times`, the lru_cache key memory `_q` (most recent first),
and the three construction-time options. -/
structure DirCache where
  cache : List (String × Listing)
  times : List (String × ℚ)
  q : List String
  use_listings_cache : Bool
  listings_expiry_time : Option ℚ
  max_paths : Option Nat
deriving DecidableEq, Repr

/-- Constructor `DirCache.__init__`: empty store, empty times, empty lru memory. -/
def DirCache.init (use_listings_cache : Bool) (listings_expiry_time : Option ℚ)
    (max_paths : Option Nat) : DirCache :=
  { cache := [], times := [], q := [],
    use_listings_cache := use_listings_cache,
    listings_expiry_time := listings_expiry_time,
    max_paths := max_paths }

/-- Python truthiness of `self.max_paths` (`if self.max_paths:`):
`None` and `0` are falsy. -/
def DirCache.maxPathsEnabled (st : DirCache) : Bool :=
  st.max_paths.getD 0 != 0

/-- Capacity of the lru_cache wrapped around the pop lambda:
`lru_cache(max_paths + 1)`. -/
def DirCache.qCap (st : DirCache) : Nat := st.max_paths.getD 0 + 1

/-- The call `self._q(k)`, i.e. `lru_cache(max_paths + 1)(lambda key: self._cache.pop(key, None))`
applied to `k`.  On a memoized key (hit) nothing runs and the key is
refreshed to most recent; on a miss the wrapped `self._cache.pop(k, None)`
runs, `k` is memoized as most recent, and the least recent key beyond
capacity is forgotten from the memo (the store keeps its value). -/
def DirCache.qTouch (st : DirCache) (k : String) : DirCache :=
  if k ∈ st.q then { st with q := k :: st.q.erase k }
  else { st with q := (k :: st.q).take st.qCap, cache := dictPop st.cache k }

/-- The tail of `DirCache.__getitem__` after the expiry check: the
`if self.max_paths: self._q(item)` touch followed by
`return self._cache[item]` (which may raise `KeyError`). -/
def DirCache.getAfterExpiry (st : DirCache) (item : String) :
    Except Unit Listing × DirCache :=
  let st1 := if st.maxPathsEnabled then st.qTouch item else st
  match dictGet st1.cache item with
  | some v => (Except.ok v, st1)
  | none => (Except.error (), st1)

/-- Read `DirCache.__getitem__(item)` at clock value `now`.  With expiry enabled,
`self._times.get(item, 0) - time.time() < -self.listings_expiry_time` first
triggers `del self._cache[item]`, which raises `KeyError` immediately if the
item is absent (skipping the recency touch). -/
def DirCache.getitem (st : DirCache) (now : ℚ) (item : String) :
    Except Unit Listing × DirCache :=
  match st.listings_expiry_time with
  | none => st.getAfterExpiry item
  | some t =>
    if (dictGet st.times item).getD 0 - now < -t then
      match dictGet st.cache item with
      | some _ => DirCache.getAfterExpiry { st with cache := dictPop st.cache item } item
      | none => (Except.error (), st)
    else st.getAfterExpiry item

/-- Write `DirCache.__setitem__(key, value)` at clock value `now`. -/
def DirCache.setitem (st : DirCache) (now : ℚ) (key : String) (value : Listing) :
    DirCache :=
  if st.use_listings_cache = false then st
  else
    let st1 := if st.maxPathsEnabled then st.qTouch key else st
    let st2 := { st1 with cache := dictSet st1.cache key value }
    match st2.listings_expiry_time with
    | none => st2
    | some _ => { st2 with times := dictSet st2.times key now }

/-- Membership `DirCache.__contains__(item)`: attempts the read and converts `KeyError`
to `false`, keeping the read's side effects. -/
def DirCache.containsD (st : DirCache) (now : ℚ) (item : String) :
    Bool × DirCache :=
  match st.getitem now item with
  | (Except.ok _, st') => (true, st')
  | (Except.error _, st') => (false, st')

/-- Deletion `DirCache.__delitem__(key)`: runs `del self._cache[key]`. -/
def DirCache.delitem (st : DirCache) (key : String) :
    Except Unit Unit × DirCache :=
  match dictGet st.cache key with
  | some _ => (Except.ok (), { st with cache := dictPop st.cache key })
  | none => (Except.error (), st)

/-- Reset `DirCache.clear()`: only `self._cache.clear()`. -/
def DirCache.clearD (st : DirCache) : DirCache := { st with cache := [] }

/-- Length `DirCache.__len__`. -/
def DirCache.lenD (st : DirCache) : Nat := st.cache.length

/-- Consuming the generator `(k for k in entries if k in self)`: each
containment check runs at consumption time and threads its side effects. -/
def DirCache.iterGo (now : ℚ) : List String → DirCache → List String × DirCache
  | [], st => ([], st)
  | k :: ks, st =>
    let r := st.containsD now k
    let rest := DirCache.iterGo now ks r.2
    (if r.1 then k :: rest.1 else rest.1, rest.2)

/-- Iteration `DirCache.__iter__` fully consumed at clock value `now`: the key snapshot
`entries = list(self._cache)` is taken at call time, then each key is
filtered through the lazy `k in self` check. -/
def DirCache.iterAll (st : DirCache) (now : ℚ) : List String × DirCache :=
  DirCache.iterGo now (st.cache.map Prod.fst) st

/-- A write handle (`AbstractBufferedFile`): opaque identity plus whether its
finalization call (`commit()`/`discard()`) raises. -/
structure FHandle where
  id : Nat
  fails : Bool
deriving DecidableEq, Repr

/-- An observed finalization call on a handle. -/
inductive TEvent where
  | commit (f : FHandle)
  | discard (f : FHandle)
deriving DecidableEq, Repr

/-- State of a `Transaction` together with the owning filesystem's
`_intrans` flag. -/
structure Transaction where
  files : List FHandle
  intrans : Bool
deriving DecidableEq, Repr

/-- The finalization call `complete` makes on one handle. -/
def finalizeEvent (commit : Bool) (f : FHandle) : TEvent :=
  if commit then TEvent.commit f else TEvent.discard f

/-- The loop `for f in self.files: f.commit() / f.discard()`: returns the
trace of calls actually made and whether the loop ran to completion.  A
handle whose call raises aborts the loop (there is no try/except), its own
call having been made. -/
def runFiles (commit : Bool) : List FHandle → List TEvent × Bool
  | [] => ([], true)
  | f :: fs =>
    if f.fails then ([finalizeEvent commit f], false)
    else
      let r := runFiles commit fs
      (finalizeEvent commit f :: r.1, r.2)

/-- Finalization `Transaction.complete(commit)`: the finalization loop, then (only if no
call raised) `self.files = []` and `self.fs._intrans = False`.  Returns the
call trace, the resulting state, and whether it returned normally. -/
def Transaction.complete (commit : Bool) (st : Transaction) :
    List TEvent × Transaction × Bool :=
  let r := runFiles commit st.files
  if r.2 then (r.1, { files := [], intrans := false }, true) else (r.1, st, false)

/-- Reset `Transaction.start()`: runs `self.files = []` and `self.fs._intrans = True`. -/
def Transaction.start (st : Transaction) : Transaction :=
  { st with files := [], intrans := true }

/-- Scope exit `Transaction.__exit__`: runs `self.complete(commit=exc_type is None)` followed
(only when `complete` returned normally) by `self.fs._intrans = False`. -/
def Transaction.exitScope (excRaised : Bool) (st : Transaction) :
    List TEvent × Transaction × Bool :=
  let r := Transaction.complete (!excRaised) st
  if r.2.2 then (r.1, { r.2.1 with intrans := false }, true) else r

/-- Events observable from the caller of `DaskTransaction.complete`. -/
inductive DEvent where
  | invoke (commit : Bool)
  | remote (e : TEvent)
  | resultRetrieved
deriving DecidableEq, Repr

/-- State of a `DaskTransaction`: the remote `FileActor`'s handle list plus
the owning filesystem's `_intrans` flag. -/
structure DaskTransaction where
  remoteFiles : List FHandle
  intrans : Bool
deriving DecidableEq, Repr

/-- Remote loops `FileActor.commit` / `FileActor.discard`, run remotely: the finalization
loop over the actor's files, then `self.files.clear()` if it completed. -/
def fileActorRun (commit : Bool) (files : List FHandle) :
    List TEvent × List FHandle × Bool :=
  let r := runFiles commit files
  if r.2 then (r.1, [], true) else (r.1, files, false)

/-- Remote finalization `DaskTransaction.complete(commit)`: invoke the remote collector's
`commit()`/`discard()`, block on `.result()` until the remote loop finished
(`DEvent.resultRetrieved` marks the result becoming available), then
`self.fs._intrans = False`.  If the remote loop raised, `.result()`
re-raises and the `_intrans` assignment is skipped. -/
def DaskTransaction.complete (commit : Bool) (st : DaskTransaction) :
    List DEvent × DaskTransaction × Bool :=
  let r := fileActorRun commit st.remoteFiles
  if r.2.2 then
    (DEvent.invoke commit :: (r.1.map DEvent.remote ++ [DEvent.resultRetrieved]),
     { remoteFiles := r.2.1, intrans := false }, true)
  else
    (DEvent.invoke commit :: r.1.map DEvent.remote, st, false)

/-! ## Association-list lemmas -/

theorem dictGet_dictSet_self {α : Type} (d : List (String × α)) (k : String) (v : α) :
    dictGet (dictSet d k v) k = some v := by
  induction d with
  | nil => simp [dictGet, dictSet]
  | cons p d ih =>
    obtain ⟨k', v'⟩ := p
    by_cases h : k' = k
    · simp [dictSet, h, dictGet]
    · simp [dictSet, h, dictGet, ih]

theorem dictGet_eq_none_iff {α : Type} (d : List (String × α)) (k : String) :
    dictGet d k = none ↔ k ∉ d.map Prod.fst := by
  induction d with
  | nil => simp [dictGet]
  | cons p d ih =>
    obtain ⟨k', v'⟩ := p
    by_cases h : k' = k
    · simp [dictGet, h]
    · simp [dictGet, h, ih, Ne.symm h]

theorem dictPop_absent {α : Type} (d : List (String × α)) (k : String)
    (h : k ∉ d.map Prod.fst) : dictPop d k = d := by
  induction d with
  | nil => simp [dictPop]
  | cons p d ih =>
    obtain ⟨k', v'⟩ := p
    simp only [List.map_cons, List.mem_cons, not_or] at h
    simp [dictPop, Ne.symm h.1, ih h.2]

theorem dictGet_dictPop_self {α : Type} (d : List (String × α)) (k : String) :
    dictGet (dictPop d k) k = none := by
  induction d with
  | nil => simp [dictPop, dictGet]
  | cons p d ih =>
    obtain ⟨k', v'⟩ := p
    by_cases h : k' = k
    · simp [dictPop, h, ih]
    · simp [dictPop, h, dictGet, ih]

theorem dictGet_dictPop_ne {α : Type} (d : List (String × α)) (k k' : String)
    (h : k' ≠ k) : dictGet (dictPop d k) k' = dictGet d k' := by
  induction d with
  | nil => simp [dictPop]
  | cons p d ih =>
    obtain ⟨a, v⟩ := p
    by_cases ha : a = k
    · subst ha
      simp [dictPop, dictGet, Ne.symm h, ih]
    · by_cases ha' : a = k'
      · subst ha'
        simp [dictPop, ha, dictGet]
      · simp [dictPop, ha, dictGet, ha', ih]

theorem dictGet_append_left_none {α : Type} (d d' : List (String × α)) (k : String)
    (h : k ∉ d.map Prod.fst) : dictGet (d ++ d') k = dictGet d' k := by
  induction d with
  | nil => simp
  | cons p d ih =>
    obtain ⟨k', v'⟩ := p
    simp only [List.map_cons, List.mem_cons, not_or] at h
    simp [dictGet, Ne.symm h.1, ih h.2]

theorem dictSet_absent {α : Type} (d : List (String × α)) (k : String) (v : α)
    (h : k ∉ d.map Prod.fst) : dictSet d k v = d ++ [(k, v)] := by
  induction d with
  | nil => simp [dictSet]
  | cons p d ih =>
    obtain ⟨k', v'⟩ := p
    simp only [List.map_cons, List.mem_cons, not_or] at h
    simp [dictSet, Ne.symm h.1, ih h.2]

/-! ## Transaction lemmas -/

theorem runFiles_of_ok (commit : Bool) (fs : List FHandle)
    (h : ∀ f ∈ fs, f.fails = false) :
    runFiles commit fs = (fs.map (finalizeEvent commit), true) := by
  induction fs with
  | nil => simp [runFiles]
  | cons f fs ih =>
    have hf : f.fails = false := h f (List.mem_cons_self f fs)
    have ht : ∀ g ∈ fs, g.fails = false := fun g hg => h g (List.mem_cons_of_mem f hg)
    simp [runFiles, hf, ih ht]

theorem count_map_commit (l : List FHandle) (f : FHandle) :
    (l.map TEvent.commit).count (TEvent.commit f) = l.count f := by
  induction l with
  | nil => simp
  | cons x l ih =>
    by_cases hx : x = f
    · simp [List.count_cons, hx, ih]
    · simp [List.count_cons, hx, ih, TEvent.commit.injEq]

theorem count_map_discard (l : List FHandle) (f : FHandle) :
    (l.map TEvent.discard).count (TEvent.discard f) = l.count f := by
  induction l with
  | nil => simp
  | cons x l ih =>
    by_cases hx : x = f
    · simp [List.count_cons, hx, ih]
    · simp [List.count_cons, hx, ih, TEvent.discard.injEq]

theorem map_finalizeEvent_true (l : List FHandle) :
    l.map (finalizeEvent true) = l.map TEvent.commit := by
  induction l with
  | nil => rfl
  | cons f l ih => simp [finalizeEvent, ih]

theorem map_finalizeEvent_false (l : List FHandle) :
    l.map (finalizeEvent false) = l.map TEvent.discard := by
  induction l with
  | nil => rfl
  | cons f l ih => simp [finalizeEvent, ih]

theorem complete_of_ok (commit : Bool) (st : Transaction)
    (h : ∀ f ∈ st.files, f.fails = false) :
    Transaction.complete commit st =
      (st.files.map (finalizeEvent commit), ⟨[], false⟩, true) := by
  unfold Transaction.complete
  rw [runFiles_of_ok commit st.files h]
  simp

/-! ## C1 -/

/-- C1: for a transaction used as a scoped block in which no registered
handle's finalizer raises: if the block exits normally, every registered
handle's `commit()` is invoked exactly once, in registration order, and
`discard()` never; if it exits via an exception, every registered handle's
`discard()` is invoked exactly once, in registration order, and `commit()`
never; in both cases the coordinator ends with an empty handle list and the
filesystem no longer marked in-transaction (`_intrans = False`). -/
theorem transaction_scope_finalize (st : Transaction)
    (h : ∀ f ∈ st.files, f.fails = false) :
    (Transaction.exitScope false st =
        (st.files.map TEvent.commit, ⟨[], false⟩, true)
      ∧ (∀ f, TEvent.discard f ∉ (Transaction.exitScope false st).1)
      ∧ (∀ f, (Transaction.exitScope false st).1.count (TEvent.commit f) =
          st.files.count f))
    ∧ (Transaction.exitScope true st =
        (st.files.map TEvent.discard, ⟨[], false⟩, true)
      ∧ (∀ f, TEvent.commit f ∉ (Transaction.exitScope true st).1)
      ∧ (∀ f, (Transaction.exitScope true st).1.count (TEvent.discard f) =
          st.files.count f)) := by
  have h1 : Transaction.exitScope false st =
      (st.files.map TEvent.commit, ⟨[], false⟩, true) := by
    unfold Transaction.exitScope
    simp only [Bool.not_false]
    rw [complete_of_ok true st h, map_finalizeEvent_true]
    simp
  have h2 : Transaction.exitScope true st =
      (st.files.map TEvent.discard, ⟨[], false⟩, true) := by
    unfold Transaction.exitScope
    simp only [Bool.not_true]
    rw [complete_of_ok false st h, map_finalizeEvent_false]
    simp
  refine ⟨⟨h1, ?_, ?_⟩, h2, ?_, ?_⟩
  · intro f
    rw [h1]
    simp
  · intro f
    rw [h1]
    simp [count_map_commit]
  · intro f
    rw [h2]
    simp
  · intro f
    rw [h2]
    simp [count_map_discard]

/-- Witness for C1: three non-failing handles, both exit modes. -/
theorem transaction_scope_finalize_witness :
    Transaction.exitScope false ⟨[⟨0, false⟩, ⟨1, false⟩, ⟨2, false⟩], true⟩ =
      ([TEvent.commit ⟨0, false⟩, TEvent.commit ⟨1, false⟩,
        TEvent.commit ⟨2, false⟩], ⟨[], false⟩, true)
    ∧ Transaction.exitScope true ⟨[⟨0, false⟩, ⟨1, false⟩, ⟨2, false⟩], true⟩ =
      ([TEvent.discard ⟨0, false⟩, TEvent.discard ⟨1, false⟩,
        TEvent.discard ⟨2, false⟩], ⟨[], false⟩, true) :=
  ⟨(transaction_scope_finalize ⟨[⟨0, false⟩, ⟨1, false⟩, ⟨2, false⟩], true⟩
      (by decide)).1.1,
   (transaction_scope_finalize ⟨[⟨0, false⟩, ⟨1, false⟩, ⟨2, false⟩], true⟩
      (by decide)).2.1⟩

/-! ## C2 -/

theorem runFiles_eq_takeWhile (commit : Bool) (fs : List FHandle) :
    runFiles commit fs =
      ((fs.takeWhile (fun f => !f.fails)
          ++ (fs.dropWhile (fun f => !f.fails)).take 1).map (finalizeEvent commit),
       fs.all (fun f => !f.fails)) := by
  induction fs with
  | nil => simp [runFiles]
  | cons f fs ih =>
    by_cases hf : f.fails
    · simp [runFiles, hf, List.takeWhile_cons, List.dropWhile_cons]
    · simp [runFiles, hf, ih, List.takeWhile_cons, List.dropWhile_cons]

/-- C2 (counterexample to the claim as stated): with registered handles
`[h0, h1]` where `h0.commit()` raises, `complete(commit=True)` never
attempts `h1`, does not clear the handle list, and leaves `_intrans = True`:
the sweep stops at the first failure instead of offering every handle a
finalize attempt and resetting to Idle unconditionally. -/
theorem complete_failure_counterexample :
    Transaction.complete true ⟨[⟨0, true⟩, ⟨1, false⟩], true⟩ =
      ([TEvent.commit ⟨0, true⟩], ⟨[⟨0, true⟩, ⟨1, false⟩], true⟩, false)
    ∧ TEvent.commit ⟨1, false⟩ ∉
        (Transaction.complete true ⟨[⟨0, true⟩, ⟨1, false⟩], true⟩).1
    ∧ (Transaction.complete true ⟨[⟨0, true⟩, ⟨1, false⟩], true⟩).2.1.files ≠ []
    ∧ (Transaction.complete true ⟨[⟨0, true⟩, ⟨1, false⟩], true⟩).2.1.intrans
        = true := by
  decide

/-- C2 (amended): `complete(commit)` attempts handles in registration order
only up to and including the first one whose finalization raises; handles
after the first failure are not attempted, and only when every finalization
succeeds is the handle list cleared and `_intrans` reset — on failure both
are left unchanged and the exception propagates. -/
theorem complete_stops_at_first_failure (commit : Bool) (st : Transaction) :
    Transaction.complete commit st =
      ((st.files.takeWhile (fun f => !f.fails)
          ++ (st.files.dropWhile (fun f => !f.fails)).take 1).map
            (finalizeEvent commit),
       if st.files.all (fun f => !f.fails) then (⟨[], false⟩ : Transaction)
       else st,
       st.files.all (fun f => !f.fails)) := by
  unfold Transaction.complete
  rw [runFiles_eq_takeWhile]
  by_cases h : st.files.all (fun f => !f.fails) <;> simp [h]

/-! ## C8 -/

/-- C8: `start()` resets the registered-handle list to empty and marks the
filesystem in-transaction; in particular a transaction started after any
previous `complete` — including one that raised partway through its handle
sweep and therefore left handles behind — begins from an empty registration
list. -/
theorem start_resets_state :
    (∀ st : Transaction, st.start = ⟨[], true⟩)
    ∧ (∀ (commit : Bool) (st : Transaction),
        Transaction.start (Transaction.complete commit st).2.1 = ⟨[], true⟩) :=
  ⟨fun _ => rfl, fun _ _ => rfl⟩

/-! ## C9 -/

/-- C9: in the remote (Dask) variant, `complete(commit)` invokes the remote
collector's `commit()` when `commit` is true and `discard()` when false,
and only returns after the remote result is retrieved (`resultRetrieved` is
the last event of its trace, coming after every remote finalization), after
which the local transaction state is cleared (`_intrans = False`). -/
theorem dask_complete_blocks (commit : Bool) (st : DaskTransaction)
    (h : ∀ f ∈ st.remoteFiles, f.fails = false) :
    DaskTransaction.complete commit st =
      (DEvent.invoke commit ::
        ((st.remoteFiles.map (finalizeEvent commit)).map DEvent.remote
          ++ [DEvent.resultRetrieved]),
       ⟨[], false⟩, true)
    ∧ (DaskTransaction.complete commit st).1.getLast? =
        some DEvent.resultRetrieved
    ∧ (DaskTransaction.complete commit st).2.1.intrans = false := by
  have h1 : DaskTransaction.complete commit st =
      (DEvent.invoke commit ::
        ((st.remoteFiles.map (finalizeEvent commit)).map DEvent.remote
          ++ [DEvent.resultRetrieved]),
       ⟨[], false⟩, true) := by
    unfold DaskTransaction.complete fileActorRun
    rw [runFiles_of_ok commit st.remoteFiles h]
    simp
  refine ⟨h1, ?_, ?_⟩
  · rw [h1,
      show (DEvent.invoke commit ::
        ((st.remoteFiles.map (finalizeEvent commit)).map DEvent.remote
          ++ [DEvent.resultRetrieved])) =
        ((DEvent.invoke commit ::
          (st.remoteFiles.map (finalizeEvent commit)).map DEvent.remote)
          ++ [DEvent.resultRetrieved]) from rfl]
    exact List.getLast?_concat _
  · rw [h1]

/-- Witness for C9: one non-failing remote handle, commit mode. -/
theorem dask_complete_blocks_witness :
    DaskTransaction.complete true ⟨[⟨0, false⟩], true⟩ =
      ([DEvent.invoke true, DEvent.remote (TEvent.commit ⟨0, false⟩),
        DEvent.resultRetrieved], ⟨[], false⟩, true)
    ∧ (DaskTransaction.complete true ⟨[⟨0, false⟩], true⟩).1.getLast? =
        some DEvent.resultRetrieved
    ∧ (DaskTransaction.complete true ⟨[⟨0, false⟩], true⟩).2.1.intrans
        = false :=
  dask_complete_blocks true ⟨[⟨0, false⟩], true⟩ (by decide)

/-! ## C7 -/

/-- C7: with caching enabled, expiry disabled and capacity disabled,
`set(p, L)` followed by `get(p)` returns `L` exactly, whatever clock values
the two operations observe. -/
theorem set_get_roundtrip (st : DirCache) (p : String) (L : Listing)
    (now now' : ℚ)
    (hc : st.use_listings_cache = true)
    (he : st.listings_expiry_time = none)
    (hm : st.maxPathsEnabled = false) :
    (st.setitem now p L).getitem now' p = (Except.ok L, st.setitem now p L) := by
  obtain ⟨c, tm, qq, u, e, m⟩ := st
  simp only [DirCache.maxPathsEnabled] at hc he hm
  subst hc he
  simp [DirCache.setitem, DirCache.getitem, DirCache.getAfterExpiry,
    DirCache.maxPathsEnabled, hm, dictGet_dictSet_self]

/-- Witness for C7: fresh cache, one entry, get long after the set. -/
theorem set_get_roundtrip_witness :
    ((DirCache.init true none none).setitem 0 "p" [⟨"p/f", 1, "file"⟩]).getitem
        1000000 "p" =
      (Except.ok [⟨"p/f", 1, "file"⟩],
       (DirCache.init true none none).setitem 0 "p" [⟨"p/f", 1, "file"⟩]) :=
  set_get_roundtrip (DirCache.init true none none) "p" [⟨"p/f", 1, "file"⟩]
    0 1000000 rfl rfl rfl

/-- A read of a key absent from the store, with capacity limiting disabled,
raises `KeyError` and leaves the state unchanged. -/
theorem getitem_error_of_absent (st : DirCache) (now : ℚ) (p : String)
    (hm : st.maxPathsEnabled = false) (ha : dictGet st.cache p = none) :
    st.getitem now p = (Except.error (), st) := by
  obtain ⟨c, tm, qq, u, e, m⟩ := st
  simp only [DirCache.maxPathsEnabled] at hm
  simp only at ha
  cases e with
  | none =>
    simp [DirCache.getitem, DirCache.getAfterExpiry, DirCache.maxPathsEnabled,
      hm, ha]
  | some T' =>
    unfold DirCache.getitem
    simp only
    split
    · simp [ha]
    · simp [DirCache.getAfterExpiry, DirCache.maxPathsEnabled, hm, ha]

/-- A containment check on a key absent from the store, with capacity
limiting disabled, returns false. -/
theorem containsD_false_of_absent (st : DirCache) (now : ℚ) (p : String)
    (hm : st.maxPathsEnabled = false) (ha : dictGet st.cache p = none) :
    (st.containsD now p).1 = false := by
  simp [DirCache.containsD, getitem_error_of_absent st now p hm ha]

/-! ## C4 -/

/-- C4: with caching enabled, expiry `T` and capacity disabled: `set(p, L)`
followed immediately by `get(p)` succeeds and returns `L`; once more than
`T` seconds have elapsed since the last set of `p`, `get(p)` fails with
`KeyError`, removes the stale entry from the store as a side effect of the
read, and any subsequent `contains(p)` returns false. -/
theorem expiry_get_behavior (st : DirCache) (p : String) (L : Listing)
    (T now now2 : ℚ)
    (hc : st.use_listings_cache = true)
    (he : st.listings_expiry_time = some T)
    (hT : 0 ≤ T)
    (hm : st.maxPathsEnabled = false)
    (hlate : T < now2 - now) :
    (st.setitem now p L).getitem now p = (Except.ok L, st.setitem now p L)
    ∧ ((st.setitem now p L).getitem now2 p).1 = Except.error ()
    ∧ dictGet ((st.setitem now p L).getitem now2 p).2.cache p = none
    ∧ ∀ now3,
        (((st.setitem now p L).getitem now2 p).2.containsD now3 p).1 = false := by
  obtain ⟨c, tm, qq, u, e, m⟩ := st
  simp only [DirCache.maxPathsEnabled] at hc he hm
  subst hc he
  have hset : DirCache.setitem ⟨c, tm, qq, true, some T, m⟩ now p L =
      ⟨dictSet c p L, dictSet tm p now, qq, true, some T, m⟩ := by
    simp [DirCache.setitem, DirCache.maxPathsEnabled, hm]
  have hfresh : ¬((dictGet (dictSet tm p now) p).getD 0 - now < -T) := by
    rw [dictGet_dictSet_self]
    simp only [Option.getD_some, sub_self]
    linarith
  have hstale : (dictGet (dictSet tm p now) p).getD 0 - now2 < -T := by
    rw [dictGet_dictSet_self]
    simp only [Option.getD_some]
    linarith
  have hget1 : DirCache.getitem ⟨dictSet c p L, dictSet tm p now, qq, true,
      some T, m⟩ now p =
      (Except.ok L, ⟨dictSet c p L, dictSet tm p now, qq, true, some T, m⟩) := by
    simp [DirCache.getitem, DirCache.getAfterExpiry, DirCache.maxPathsEnabled,
      hm, dictGet_dictSet_self]
    intro h
    exact absurd h (by linarith)
  have hget2 : DirCache.getitem ⟨dictSet c p L, dictSet tm p now, qq, true,
      some T, m⟩ now2 p =
      (Except.error (), ⟨dictPop (dictSet c p L) p, dictSet tm p now, qq, true,
        some T, m⟩) := by
    simp [DirCache.getitem, DirCache.getAfterExpiry, DirCache.maxPathsEnabled,
      hm, dictGet_dictSet_self, dictGet_dictPop_self]
    linarith
  refine ⟨by rw [hset, hget1], by rw [hset, hget2], ?_, ?_⟩
  · rw [hset, hget2]
    exact dictGet_dictPop_self _ _
  · intro now3
    rw [hset, hget2]
    rw [containsD_false_of_absent]
    · exact hm
    · exact dictGet_dictPop_self _ _

/-- Witness for C4: fresh cache with `T = 1`, set at time 0, read at times 0
and 2, contains at time 3. -/
theorem expiry_get_behavior_witness :
    ((DirCache.init true (some 1) none).setitem 0 "p" [⟨"p/f", 1, "file"⟩]).getitem
        0 "p" =
      (Except.ok [⟨"p/f", 1, "file"⟩],
       (DirCache.init true (some 1) none).setitem 0 "p" [⟨"p/f", 1, "file"⟩])
    ∧ (((DirCache.init true (some 1) none).setitem 0 "p"
        [⟨"p/f", 1, "file"⟩]).getitem 2 "p").1 = Except.error ()
    ∧ dictGet (((DirCache.init true (some 1) none).setitem 0 "p"
        [⟨"p/f", 1, "file"⟩]).getitem 2 "p").2.cache "p" = none
    ∧ ∀ now3,
        ((((DirCache.init true (some 1) none).setitem 0 "p"
          [⟨"p/f", 1, "file"⟩]).getitem 2 "p").2.containsD now3 "p").1 = false :=
  expiry_get_behavior (DirCache.init true (some 1) none) "p"
    [⟨"p/f", 1, "file"⟩] 1 0 2 rfl rfl (by norm_num) rfl (by norm_num)

/-! ## C6 -/

/-- C6: with capacity limiting enabled (expiry at its disabled default),
after a path `p` has fallen out of the recency window (no longer among the
tracker's memoized keys), `set(p, L2)` succeeds, re-admits `p` to the
tracker as the most recently touched key, and a following `get(p)` returns
`L2`. -/
theorem set_readmits_evicted (st : DirCache) (p : String) (L2 : Listing)
    (now now' : ℚ)
    (hc : st.use_listings_cache = true)
    (he : st.listings_expiry_time = none)
    (hm : st.maxPathsEnabled = true)
    (hq : p ∉ st.q) :
    (st.setitem now p L2).q.head? = some p
    ∧ (st.setitem now p L2).getitem now' p =
        (Except.ok L2, st.setitem now p L2) := by
  obtain ⟨c, tm, qq, u, e, m⟩ := st
  simp only [DirCache.maxPathsEnabled] at hc he hm
  simp only at hq
  subst hc he
  have hset : DirCache.setitem ⟨c, tm, qq, true, none, m⟩ now p L2 =
      ⟨dictSet (dictPop c p) p L2, tm, (p :: qq).take (m.getD 0 + 1), true,
        none, m⟩ := by
    simp [DirCache.setitem, DirCache.maxPathsEnabled, DirCache.qTouch,
      DirCache.qCap, hm, hq]
  rw [hset]
  refine ⟨by simp [List.take_succ_cons], ?_⟩
  have hmem : p ∈ (p :: qq).take (m.getD 0 + 1) := by
    simp [List.take_succ_cons]
  simp [DirCache.getitem, DirCache.getAfterExpiry, DirCache.maxPathsEnabled,
    DirCache.qTouch, hm, hmem, List.take_succ_cons, List.erase_cons_head,
    dictGet_dictSet_self]

/-- Witness for C6: `max_paths = 1`, store holds `p1` but the tracker only
remembers `zz`, so `p1` is outside the window; a set at time 5 re-admits it
and a get at time 6 returns the new listing. -/
theorem set_readmits_evicted_witness :
    (DirCache.setitem ⟨[("p1", [⟨"p1/f", 1, "file"⟩])], [], ["zz"], true, none,
        some 1⟩ 5 "p1" [⟨"p1/g", 9, "file"⟩]).q.head? = some "p1"
    ∧ (DirCache.setitem ⟨[("p1", [⟨"p1/f", 1, "file"⟩])], [], ["zz"], true,
        none, some 1⟩ 5 "p1" [⟨"p1/g", 9, "file"⟩]).getitem 6 "p1" =
      (Except.ok [⟨"p1/g", 9, "file"⟩],
       DirCache.setitem ⟨[("p1", [⟨"p1/f", 1, "file"⟩])], [], ["zz"], true,
        none, some 1⟩ 5 "p1" [⟨"p1/g", 9, "file"⟩]) :=
  set_readmits_evicted ⟨[("p1", [⟨"p1/f", 1, "file"⟩])], [], ["zz"], true,
    none, some 1⟩ "p1" [⟨"p1/g", 9, "file"⟩] 5 6 rfl rfl rfl (by decide)

/-! ## C10 -/

/-- C10: with capacity limiting enabled (expiry at its disabled default), a
`get` of a path absent from the store fails with `KeyError` but is not
state-preserving: the store is unchanged, yet the absent path becomes the
most recently touched key of the recency tracker, consuming a window slot.
Concrete consequence (`max_paths = 1`): after storing `p1`, two failing
reads of absent paths `x` and `y` push `p1` out of the tracker window, so
the next `get(p1)` fails and purges `p1` from the store even though it was
still stored just before that touch. -/
theorem absent_get_consumes_slot (st : DirCache) (a : String) (now : ℚ)
    (he : st.listings_expiry_time = none)
    (hm : st.maxPathsEnabled = true)
    (ha : dictGet st.cache a = none) :
    ((st.getitem now a).1 = Except.error ()
      ∧ (st.getitem now a).2.q.head? = some a
      ∧ (st.getitem now a).2.cache = st.cache)
    ∧ (dictGet (((((DirCache.init true none (some 1)).setitem 0 "p1"
          [⟨"p1/f", 1, "file"⟩]).getitem 0 "x").2.getitem 0 "y").2).cache "p1"
          = some [⟨"p1/f", 1, "file"⟩]
        ∧ ((((((DirCache.init true none (some 1)).setitem 0 "p1"
          [⟨"p1/f", 1, "file"⟩]).getitem 0 "x").2.getitem 0 "y").2).getitem 0
            "p1").1 = Except.error ()
        ∧ dictGet (((((((DirCache.init true none (some 1)).setitem 0 "p1"
          [⟨"p1/f", 1, "file"⟩]).getitem 0 "x").2.getitem 0 "y").2).getitem 0
            "p1").2).cache "p1" = none) := by
  refine ⟨?_, by decide⟩
  obtain ⟨c, tm, qq, u, e, m⟩ := st
  simp only [DirCache.maxPathsEnabled] at he hm
  simp only at ha
  subst he
  by_cases haq : a ∈ qq
  · simp [DirCache.getitem, DirCache.getAfterExpiry, DirCache.maxPathsEnabled,
      DirCache.qTouch, hm, haq, ha]
  · have hpop : dictPop c a = c :=
      dictPop_absent c a ((dictGet_eq_none_iff c a).mp ha)
    simp [DirCache.getitem, DirCache.getAfterExpiry, DirCache.maxPathsEnabled,
      DirCache.qTouch, DirCache.qCap, hm, haq, ha, hpop, List.take_succ_cons]

/-- Witness for C10's universal part: `max_paths = 1`, store holds `p`,
tracker remembers `p`; a get of the absent `x` fails, leaves the store
unchanged, and makes `x` the tracker's most recent key. -/
theorem absent_get_consumes_slot_witness :
    (DirCache.getitem ⟨[("p", [⟨"p/f", 1, "file"⟩])], [], ["p"], true, none,
        some 1⟩ 0 "x").1 = Except.error ()
    ∧ (DirCache.getitem ⟨[("p", [⟨"p/f", 1, "file"⟩])], [], ["p"], true, none,
        some 1⟩ 0 "x").2.q.head? = some "x"
    ∧ (DirCache.getitem ⟨[("p", [⟨"p/f", 1, "file"⟩])], [], ["p"], true, none,
        some 1⟩ 0 "x").2.cache = [("p", [⟨"p/f", 1, "file"⟩])] :=
  (absent_get_consumes_slot ⟨[("p", [⟨"p/f", 1, "file"⟩])], [], ["p"], true,
    none, some 1⟩ "x" 0 rfl rfl (by decide)).1

/-! ## C5 -/

theorem iterGo_cons (now : ℚ) (k : String) (ks : List String) (st : DirCache) :
    DirCache.iterGo now (k :: ks) st =
      ((if (st.containsD now k).1
        then k :: (DirCache.iterGo now ks (st.containsD now k).2).1
        else (DirCache.iterGo now ks (st.containsD now k).2).1),
       (DirCache.iterGo now ks (st.containsD now k).2).2) := rfl

theorem iterGo_subset (now : ℚ) (ks : List String) :
    ∀ st : DirCache, (DirCache.iterGo now ks st).1 ⊆ ks := by
  induction ks with
  | nil => intro st; simp [DirCache.iterGo]
  | cons k ks ih =>
    intro st
    rw [iterGo_cons]
    by_cases hb : (st.containsD now k).1
    · simp only [hb, if_true]
      exact List.cons_subset_cons k (ih _)
    · simp only [hb, if_false, Bool.false_eq_true]
      exact (ih _).trans (List.subset_cons_self k ks)

/-- With capacity limiting and expiry both disabled, a read has no side
effects and returns exactly the stored value. -/
theorem getitem_of_disabled (st : DirCache) (now : ℚ) (k : String)
    (hm : st.maxPathsEnabled = false) (he : st.listings_expiry_time = none) :
    st.getitem now k =
      ((match dictGet st.cache k with
        | some v => Except.ok v
        | none => Except.error ()), st) := by
  obtain ⟨c, tm, qq, u, e, m⟩ := st
  simp only [DirCache.maxPathsEnabled] at hm
  simp only at he
  subst he
  cases hdg : dictGet c k <;>
    simp [DirCache.getitem, DirCache.getAfterExpiry, DirCache.maxPathsEnabled,
      hm, hdg]

theorem containsD_of_disabled (st : DirCache) (now : ℚ) (k : String)
    (hm : st.maxPathsEnabled = false) (he : st.listings_expiry_time = none) :
    st.containsD now k = ((dictGet st.cache k).isSome, st) := by
  unfold DirCache.containsD
  rw [getitem_of_disabled st now k hm he]
  cases hdg : dictGet st.cache k <;> simp [hdg]

theorem iterGo_of_disabled (now : ℚ) (ks : List String) (st : DirCache)
    (hm : st.maxPathsEnabled = false) (he : st.listings_expiry_time = none)
    (hks : ∀ k ∈ ks, k ∈ st.cache.map Prod.fst) :
    DirCache.iterGo now ks st = (ks, st) := by
  induction ks with
  | nil => rfl
  | cons k ks ih =>
    rw [iterGo_cons, containsD_of_disabled st now k hm he]
    have hk : (dictGet st.cache k).isSome = true := by
      rw [Option.isSome_iff_ne_none]
      intro hn
      exact absurd (hks k (by simp))
        (by simpa using (dictGet_eq_none_iff st.cache k).mp hn)
    simp [hk, ih (fun k' hk' => hks k' (List.mem_cons_of_mem _ hk'))]

/-- C5 (counterexample to the claim as stated): with `max_paths = 1`, after
setting `a`, `b`, `c` the store holds all three and `b`, `c` are inside the
recency window (so `b` is visible at call time, as the last conjunct
checks on the call-time state); yet fully consuming `iterate()` produces
`[]`, because the iteration's own lazy containment checks touch the tracker
and evict every key before it is tested. -/
theorem iter_visibility_counterexample :
    (((((DirCache.init true none (some 1)).setitem 0 "a"
        [⟨"a/f", 1, "file"⟩]).setitem 0 "b" [⟨"b/f", 2, "file"⟩]).setitem 0 "c"
        [⟨"c/f", 3, "file"⟩]).iterAll 0).1 = []
    ∧ (((((DirCache.init true none (some 1)).setitem 0 "a"
        [⟨"a/f", 1, "file"⟩]).setitem 0 "b" [⟨"b/f", 2, "file"⟩]).setitem 0 "c"
        [⟨"c/f", 3, "file"⟩]).containsD 0 "b").1 = true := by
  decide

/-- C5 (amended): `iterate()` snapshots the key list at call time and then
filters it through the same visibility check as `contains`, evaluated
lazily with its side effects threaded, so it always produces a sub-list of
the call-time store keys; only when capacity limiting and expiry are both
disabled does it produce exactly the paths visible at call time (every
stored key), with no side effects. -/
theorem iter_amended (st : DirCache) (now : ℚ)
    (hm : st.maxPathsEnabled = false) (he : st.listings_expiry_time = none) :
    (∀ (st' : DirCache) (now' : ℚ),
      (st'.iterAll now').1 ⊆ st'.cache.map Prod.fst)
    ∧ st.iterAll now = (st.cache.map Prod.fst, st) := by
  refine ⟨fun st' now' => iterGo_subset now' _ st', ?_⟩
  unfold DirCache.iterAll
  exact iterGo_of_disabled now _ st hm he (fun k hk => hk)

/-- Witness for C5's amended theorem: one stored key, both features
disabled, iterate returns it and leaves the state unchanged. -/
theorem iter_amended_witness :
    DirCache.iterAll ⟨[("a", [⟨"a/f", 1, "file"⟩])], [], [], true, none,
        none⟩ 0 =
      (["a"], ⟨[("a", [⟨"a/f", 1, "file"⟩])], [], [], true, none, none⟩) :=
  (iter_amended ⟨[("a", [⟨"a/f", 1, "file"⟩])], [], [], true, none, none⟩ 0
    rfl rfl).2

/-! ## C3 -/

/-- C3 (counterexample to the claim as stated): with `max_paths = N = 1`,
touch `N + 1 = 2` distinct paths (`set p1`, `set p2`); the claim requires
`get(p1)` to now fail with `KeyError`, but it succeeds and returns `L1`,
because the lru_cache behind the tracker is created with capacity
`max_paths + 1 = 2` and still remembers `p1`. -/
theorem capacity_window_counterexample :
    ((((DirCache.init true none (some 1)).setitem 0 "p1"
        [⟨"p1/f", 1, "file"⟩]).setitem 0 "p2"
        [⟨"p2/f", 2, "file"⟩]).getitem 0 "p1").1 =
      Except.ok [⟨"p1/f", 1, "file"⟩] := by
  decide

/-- A sequence of writes performed at one clock value. -/
def setAll (st : DirCache) (t : ℚ) (pairs : List (String × Listing)) :
    DirCache :=
  pairs.foldl (fun s kv => s.setitem t kv.1 kv.2) st

theorem take_append_take {α : Type} (xs ys : List α) (n : Nat) :
    (xs ++ ys.take n).take n = (xs ++ ys).take n := by
  rw [List.take_append_eq_append_take, List.take_append_eq_append_take,
    List.take_take, Nat.min_eq_left (Nat.sub_le n xs.length)]

theorem take_append_cons_take {α : Type} (xs : List α) (k : α) (ys : List α)
    (n : Nat) :
    (xs ++ k :: ys.take n).take (n + 1) = (xs ++ k :: ys).take (n + 1) := by
  simpa [List.take_succ_cons] using take_append_take xs (k :: ys) (n + 1)

/-- Invariant of a run of writes of pairwise-distinct fresh keys on a cache
with capacity limiting enabled (`max_paths = N`), expiry disabled: the store
grows in order and the tracker memoizes the last `N + 1` touches, most
recent first. -/
theorem setAll_fresh (pairs : List (String × Listing)) :
    ∀ (c : List (String × Listing)) (tm : List (String × ℚ))
      (qq : List String) (N : Nat) (t : ℚ), N ≠ 0 → qq.length ≤ N + 1 →
      (∀ k ∈ pairs.map Prod.fst, k ∉ c.map Prod.fst ∧ k ∉ qq) →
      (pairs.map Prod.fst).Nodup →
      setAll ⟨c, tm, qq, true, none, some N⟩ t pairs =
        ⟨c ++ pairs, tm, ((pairs.map Prod.fst).reverse ++ qq).take (N + 1),
          true, none, some N⟩ := by
  induction pairs with
  | nil =>
    intro c tm qq N t hN hq hfresh hnd
    simp [setAll, List.take_of_length_le hq]
  | cons kv pairs ih =>
    intro c tm qq N t hN hq hfresh hnd
    obtain ⟨k, v⟩ := kv
    have hk := hfresh k (by simp)
    have hmp : ((some N : Option Nat).getD 0 != 0) = true := by
      simp [hN]
    have hstep : DirCache.setitem ⟨c, tm, qq, true, none, some N⟩ t k v =
        ⟨c ++ [(k, v)], tm, (k :: qq).take (N + 1), true, none, some N⟩ := by
      simp [DirCache.setitem, DirCache.maxPathsEnabled, DirCache.qTouch,
        DirCache.qCap, hk.2, hmp, hN, dictPop_absent c k hk.1,
        dictSet_absent c k v hk.1]
    have hnd' : (pairs.map Prod.fst).Nodup := by
      simpa using (List.nodup_cons.mp (by simpa using hnd)).2
    have hknot : k ∉ pairs.map Prod.fst :=
      (List.nodup_cons.mp (by simpa using hnd)).1
    have hfresh' : ∀ k' ∈ pairs.map Prod.fst,
        k' ∉ (c ++ [(k, v)]).map Prod.fst ∧ k' ∉ (k :: qq).take (N + 1) := by
      intro k' hk'
      have hf := hfresh k' (by simp [hk'])
      have hne : k' ≠ k := fun h => hknot (h ▸ hk')
      refine ⟨by simp [hne, hf.1], ?_⟩
      intro hmem
      rcases List.mem_cons.mp (List.take_subset _ _ hmem) with h | h
      · exact hne h
      · exact hf.2 h
    rw [show setAll ⟨c, tm, qq, true, none, some N⟩ t ((k, v) :: pairs) =
        setAll (DirCache.setitem ⟨c, tm, qq, true, none, some N⟩ t k v) t pairs
      from rfl, hstep,
      ih (c ++ [(k, v)]) tm ((k :: qq).take (N + 1)) N t hN
        (List.length_take_le _ _) hfresh' hnd']
    simp [DirCache.mk.injEq, take_append_cons_take, List.reverse_cons,
      List.append_assoc]

/-- C3 (amended): the recency tracker remembers the most recent
`max_paths + 1` distinct touches, so with `max_paths = N ≥ 1` (caching on,
expiry at its disabled default) setting `N + 2` distinct paths
`p1, …, p(N+2)` in order with no repeats makes `get(p1)` fail with
`KeyError`, `p1` having been evicted from the tracker and purged from the
store on this touch, while a following `get(p(N+2))` still succeeds. -/
theorem capacity_amended (N : Nat) (k0 kl : String) (v0 vl : Listing)
    (mid : List (String × Listing)) (t0 t1 t2 : ℚ)
    (hN : N ≠ 0)
    (hlen : mid.length = N)
    (hnd : (((k0, v0) :: (mid ++ [(kl, vl)])).map Prod.fst).Nodup) :
    ((setAll (DirCache.init true none (some N)) t0
        ((k0, v0) :: (mid ++ [(kl, vl)]))).getitem t1 k0).1 = Except.error ()
    ∧ dictGet ((setAll (DirCache.init true none (some N)) t0
        ((k0, v0) :: (mid ++ [(kl, vl)]))).getitem t1 k0).2.cache k0 = none
    ∧ (((setAll (DirCache.init true none (some N)) t0
        ((k0, v0) :: (mid ++ [(kl, vl)]))).getitem t1 k0).2.getitem t2 kl).1 =
        Except.ok vl := by
  have hnd1 : k0 ∉ mid.map Prod.fst ++ [kl] :=
    (List.nodup_cons.mp (by simpa using hnd)).1
  have hnd2 : (mid.map Prod.fst ++ [kl]).Nodup :=
    (List.nodup_cons.mp (by simpa using hnd)).2
  have hklk0 : kl ≠ k0 := fun h => hnd1 (by simp [h])
  have hklmid : kl ∉ mid.map Prod.fst := fun hmem =>
    (List.nodup_append.mp hnd2).2.2 hmem (by simp)
  have hst : setAll (DirCache.init true none (some N)) t0
      ((k0, v0) :: (mid ++ [(kl, vl)])) =
      ⟨(k0, v0) :: (mid ++ [(kl, vl)]), [], kl :: (mid.map Prod.fst).reverse,
        true, none, some N⟩ := by
    have h := setAll_fresh ((k0, v0) :: (mid ++ [(kl, vl)])) [] [] [] N t0 hN
      (by simp) (by simp) hnd
    rw [show DirCache.init true none (some N) =
        ⟨[], [], [], true, none, some N⟩ from rfl, h]
    have hqeq : ((((k0, v0) :: (mid ++ [(kl, vl)])).map Prod.fst).reverse
        ++ ([] : List String)).take (N + 1) =
        kl :: (mid.map Prod.fst).reverse := by
      rw [show ((((k0, v0) :: (mid ++ [(kl, vl)])).map Prod.fst).reverse
          ++ ([] : List String)) =
          ((kl :: (mid.map Prod.fst).reverse) ++ [k0]) from by simp]
      rw [List.take_left' (by simp [hlen])]
    rw [hqeq]
    simp
  have hk0q : k0 ∉ kl :: (mid.map Prod.fst).reverse := by
    intro hmem
    rcases List.mem_cons.mp hmem with h | h
    · exact hnd1 (by simp [h])
    · exact hnd1 (by simp [List.mem_reverse.mp h])
  have hmp : ((some N : Option Nat).getD 0 != 0) = true := by simp [hN]
  have hget1 : DirCache.getitem ⟨(k0, v0) :: (mid ++ [(kl, vl)]), [],
      kl :: (mid.map Prod.fst).reverse, true, none, some N⟩ t1 k0 =
      (Except.error (),
       ⟨dictPop ((k0, v0) :: (mid ++ [(kl, vl)])) k0, [],
        k0 :: (kl :: (mid.map Prod.fst).reverse).take N, true, none,
        some N⟩) := by
    simp [DirCache.getitem, DirCache.getAfterExpiry, DirCache.maxPathsEnabled,
      DirCache.qTouch, DirCache.qCap, hk0q, hmp, hN, dictGet_dictPop_self,
      List.take_succ_cons]
  have hklq : kl ∈ k0 :: (kl :: (mid.map Prod.fst).reverse).take N := by
    obtain ⟨N', rfl⟩ : ∃ N', N = N' + 1 := ⟨N - 1, by omega⟩
    simp [List.take_succ_cons]
  have hdgkl : dictGet (dictPop ((k0, v0) :: (mid ++ [(kl, vl)])) k0) kl =
      some vl := by
    rw [dictGet_dictPop_ne _ _ _ hklk0]
    have h1 : dictGet ((k0, v0) :: (mid ++ [(kl, vl)])) kl =
        dictGet (mid ++ [(kl, vl)]) kl := by
      simp [dictGet, Ne.symm hklk0]
    rw [h1, dictGet_append_left_none _ _ _ hklmid]
    simp [dictGet]
  have hget2 : ((⟨dictPop ((k0, v0) :: (mid ++ [(kl, vl)])) k0, [],
      k0 :: (kl :: (mid.map Prod.fst).reverse).take N, true, none,
      some N⟩ : DirCache).getitem t2 kl).1 = Except.ok vl := by
    simp [DirCache.getitem, DirCache.getAfterExpiry, DirCache.maxPathsEnabled,
      DirCache.qTouch, hklq, hmp, hN, hdgkl]
  refine ⟨?_, ?_, ?_⟩
  · rw [hst, hget1]
  · rw [hst, hget1]
    exact dictGet_dictPop_self _ _
  · rw [hst, hget1]
    exact hget2

/-- Witness for the amended C3: `N = 1`, distinct paths `a`, `b`, `c` set in
order; `get a` fails and purges `a`, `get c` succeeds. -/
theorem capacity_amended_witness :
    ((setAll (DirCache.init true none (some 1)) 0
        (("a", [⟨"a/f", 1, "file"⟩]) :: ([("b", [⟨"b/f", 2, "file"⟩])] ++
          [("c", [⟨"c/f", 3, "file"⟩])]))).getitem 0 "a").1 = Except.error ()
    ∧ dictGet ((setAll (DirCache.init true none (some 1)) 0
        (("a", [⟨"a/f", 1, "file"⟩]) :: ([("b", [⟨"b/f", 2, "file"⟩])] ++
          [("c", [⟨"c/f", 3, "file"⟩])]))).getitem 0 "a").2.cache "a" = none
    ∧ (((setAll (DirCache.init true none (some 1)) 0
        (("a", [⟨"a/f", 1, "file"⟩]) :: ([("b", [⟨"b/f", 2, "file"⟩])] ++
          [("c", [⟨"c/f", 3, "file"⟩])]))).getitem 0 "a").2.getitem 0
        "c").1 = Except.ok [⟨"c/f", 3, "file"⟩] :=
  capacity_amended 1 "a" "c" [⟨"a/f", 1, "file"⟩] [⟨"c/f", 3, "file"⟩]
    [("b", [⟨"b/f", 2, "file"⟩])] 0 0 0 (by decide) rfl (by decide)
